import Mathlib

/-
Verification of the order-statistics AVL tree (`AVLTree<T, Comparator>`).

The C++ class is embedded shallowly:
  * `Node*` becomes the inductive `Tree T` (`nil` = null pointer);
  * the node fields `data`, `elements_subtree`, `depth`, `left`, `right`
    become the constructor arguments of `Tree.node`;
  * `size_t` and `unsigned char` become `Nat` (the `depth` field of a
    reachable tree never comes near 256, and `element_count` underflow
    cannot occur since it is decremented only under a guard);
  * the out-parameters (`size_t *pos_ptr`, `T *value`, `bool &was_deleted`)
    become extra components of the result;
  * the comparator functor becomes an explicit `cmp : T → T → Bool`.
-/

namespace AVLSpec

/-- A (possibly null) pointer to an `AVLTree::Node`.
`node data elements_subtree depth left right` carries the five fields of
the C++ `struct Node`. -/
inductive Tree (T : Type) where
  | nil : Tree T
  | node (data : T) (elements_subtree : Nat) (depth : Nat)
      (left : Tree T) (right : Tree T) : Tree T
deriving Repr, DecidableEq

variable {T : Type}

/-- The value of `x ? x->depth : 0` for a pointer `x`. -/
def depthF : Tree T → Nat
  | .nil => 0
  | .node _ _ dep _ _ => dep

/-- `Node::in_left_subtree` / `in_right_subtree` applied to the child in
question: `child ? child->elements_subtree + 1 : 0`. -/
def subCnt : Tree T → Nat
  | .nil => 0
  | .node _ es _ _ _ => es + 1

/-- A node over children `l`, `r` after `update_depth()` and
`update_elements_subtree()` have recomputed its two cached fields. -/
def mkNode (d : T) (l r : Tree T) : Tree T :=
  .node d (subCnt l + subCnt r) (max (depthF l) (depthF r) + 1) l r

/-- `Node::balance()`: `(right ? right->depth : 0) - (left ? left->depth : 0)`.
The C++ method is only invoked on non-null nodes; `nil` gets the vacuous
value 0. -/
def balanceF : Tree T → Int
  | .nil => 0
  | .node _ _ _ l r => (depthF r : Int) - (depthF l : Int)

/-- `AVLTree::rotate_right`.  The C++ asserts `node && node->left`; outside
that pattern (never hit at the call sites) the tree is returned unchanged. -/
def rotate_right : Tree T → Tree T
  | .node d _ _ (.node dl _ _ ll rl) r => mkNode dl ll (mkNode d rl r)
  | t => t

/-- `AVLTree::rotate_left`. -/
def rotate_left : Tree T → Tree T
  | .node d _ _ l (.node dr _ _ lr rr) => mkNode dr (mkNode d l lr) rr
  | t => t

/-- `AVLTree::balance_node`: refresh `depth`, then rotate when the balance
factor is ±2, otherwise just refresh `elements_subtree`. -/
def balance_node : Tree T → Tree T
  | .nil => .nil
  | .node d es _ l r =>
    let dep := max (depthF l) (depthF r) + 1
    if (depthF r : Int) - (depthF l : Int) = 2 then
      let r2 := if balanceF r < 0 then rotate_right r else r
      rotate_left (.node d es dep l r2)
    else if (depthF r : Int) - (depthF l : Int) = -2 then
      let l2 := if balanceF l > 0 then rotate_left l else l
      rotate_right (.node d es dep l2 r)
    else
      .node d (subCnt l + subCnt r) dep l r

/-- `AVLTree::insert_rec`.  The result pairs the new subtree root with the
final value of `*pos_ptr` (third argument = its value on entry). -/
def insert_rec (cmp : T → T → Bool) : Tree T → T → Nat → Tree T × Nat
  | .nil, x, pos => (.node x 0 1 .nil .nil, pos)
  | .node d es dep l r, x, pos =>
    if cmp x d then
      let p := insert_rec cmp l x pos
      (balance_node (.node d (es + 1) dep p.1 r), p.2)
    else
      let p := insert_rec cmp r x (pos + (subCnt l + 1))
      (balance_node (.node d (es + 1) dep l p.1), p.2)

/-- `AVLTree::get_Kth_rec`.  `none` models the `!node` early return that
leaves `*value` unwritten. -/
def get_Kth_rec : Tree T → Nat → Nat → Option T
  | .nil, _, _ => none
  | .node d _ _ l r, find_pos, pos =>
    if pos + subCnt l = find_pos then some d
    else if pos + subCnt l < find_pos then
      get_Kth_rec r find_pos (pos + subCnt l + 1)
    else
      get_Kth_rec l find_pos pos

/-- `AVLTree::remove_min`: result is the new subtree root and the value
saved through `save_data`.  The C++ asserts a non-null argument; on `nil`
(never hit at the call sites) nothing is saved. -/
def remove_min : Tree T → Tree T × Option T
  | .nil => (.nil, none)
  | .node d _ _ .nil r => (r, some d)
  | .node d es dep (.node dl esl depl ll rl) r =>
    let p := remove_min (.node dl esl depl ll rl)
    (balance_node (.node d (es - 1) dep p.1 r), p.2)

/-- `AVLTree::remove_max`, symmetric to `remove_min`. -/
def remove_max : Tree T → Tree T × Option T
  | .nil => (.nil, none)
  | .node d _ _ l .nil => (l, some d)
  | .node d es dep l (.node dr esr depr lr rr) =>
    let p := remove_max (.node dr esr depr lr rr)
    (balance_node (.node d (es - 1) dep l p.1), p.2)

/-- `AVLTree::remove_rec`.  The result is the new subtree root, the value
written through `value` (if any), and the final value of `was_deleted`
(third argument = its value on entry).  Mirroring the source faithfully,
no branch ever sets `was_deleted` to `true`. -/
def remove_rec (cmp : T → T → Bool) : Tree T → T → Bool → Tree T × Option T × Bool
  | .nil, _, wd => (.nil, none, wd)
  | .node d es dep l r, key, wd =>
    if cmp d key then
      let p := remove_rec cmp r key wd
      (balance_node (.node d (if p.2.2 then es - 1 else es) dep l p.1), p.2.1, p.2.2)
    else if cmp key d then
      let p := remove_rec cmp l key wd
      (balance_node (.node d (if p.2.2 then es - 1 else es) dep p.1 r), p.2.1, p.2.2)
    else
      if depthF r = 0 && depthF l = 0 then
        (.nil, some d, wd)
      else if depthF l ≤ depthF r then
        let p := remove_min r
        (balance_node (.node (p.2.getD d) es dep l p.1), some d, wd)
      else
        let p := remove_max l
        (balance_node (.node (p.2.getD d) es dep p.1 r), some d, wd)

/-- The private state of an `AVLTree` object: `root` and `element_count`. -/
structure State (T : Type) where
  root : Tree T
  element_count : Nat
deriving Repr, DecidableEq

/-- The constructor: `root(nullptr), element_count(0)`. -/
def emptyState : State T := ⟨.nil, 0⟩

/-- `AVLTree::insert`: returns the new state and the returned position. -/
def insert (cmp : T → T → Bool) (s : State T) (x : T) : State T × Nat :=
  let p := insert_rec cmp s.root x 0
  (⟨p.1, s.element_count + 1⟩, p.2)

/-- `AVLTree::remove`: returns the new state, the value copied into
`deleted` (if any), and the final `was_deleted` flag. -/
def remove (cmp : T → T → Bool) (s : State T) (key : T) : State T × Option T × Bool :=
  let p := remove_rec cmp s.root key false
  (⟨p.1, if p.2.2 then s.element_count - 1 else s.element_count⟩, p.2.1, p.2.2)

/-- `AVLTree::get_Kth`: the `assert(pos < element_count)` is modelled by
returning `none` when the bound fails (the C++ aborts there). -/
def get_Kth (s : State T) (pos : Nat) : Option T :=
  if pos < s.element_count then get_Kth_rec s.root pos 0 else none

/-- One public mutating call on an `AVLTree` object. -/
inductive Op (T : Type) where
  | ins (x : T)
  | rem (key : T)
deriving Repr, DecidableEq

/-- Apply one public call, keeping only the updated object state. -/
def applyOp (cmp : T → T → Bool) (s : State T) : Op T → State T
  | .ins x => (insert cmp s x).1
  | .rem key => (remove cmp s key).1

/-- The state of a freshly constructed tree after a sequence of public
`insert`/`remove` calls. -/
def runOps (cmp : T → T → Bool) (ops : List (Op T)) : State T :=
  ops.foldl (applyOp cmp) emptyState

/-! ## Measures and invariants (specification side) -/

/-- Actual height of a tree (leaf = 1, null = 0). -/
def heightT : Tree T → Nat
  | .nil => 0
  | .node _ _ _ l r => max (heightT l) (heightT r) + 1

/-- Actual number of nodes. -/
def sizeT : Tree T → Nat
  | .nil => 0
  | .node _ _ _ l r => sizeT l + sizeT r + 1

/-- In-order traversal. -/
def inorder : Tree T → List T
  | .nil => []
  | .node d _ _ l r => inorder l ++ d :: inorder r

/-- Every node's `elements_subtree` field equals the node count of its
subtree minus one (itself excluded). -/
def sizesOk : Tree T → Bool
  | .nil => true
  | .node _ es _ l r =>
    (es == sizeT l + sizeT r) && sizesOk l && sizesOk r

/-- Every node's `depth` field equals the actual height of its subtree. -/
def depthsOk : Tree T → Bool
  | .nil => true
  | .node _ _ dep l r =>
    (dep == max (heightT l) (heightT r) + 1) && depthsOk l && depthsOk r

/-- AVL balance on actual heights: the two child heights differ by at
most 1, at every node. -/
def avlBalanced : Tree T → Bool
  | .nil => true
  | .node _ _ _ l r =>
    (decide (heightT l ≤ heightT r + 1)) && (decide (heightT r ≤ heightT l + 1))
      && avlBalanced l && avlBalanced r

/-- Cached fields correct and AVL-balanced. -/
def validT (t : Tree T) : Bool := sizesOk t && depthsOk t && avlBalanced t

/-- The strict BST order invariant of spec §3: keys in the left subtree
compare strictly less than the node, keys in the right compare
greater-or-equal. -/
def strictBST (cmp : T → T → Bool) : Tree T → Bool
  | .nil => true
  | .node d _ _ l r =>
    (inorder l).all (fun k => cmp k d) && (inorder r).all (fun k => !cmp k d)
      && strictBST cmp l && strictBST cmp r

/-- The weakened order invariant the code actually maintains: keys in the
left subtree compare not-greater than the node, keys in the right compare
not-less. -/
def weakBST (cmp : T → T → Bool) : Tree T → Bool
  | .nil => true
  | .node d _ _ l r =>
    (inorder l).all (fun k => !cmp d k) && (inorder r).all (fun k => !cmp k d)
      && weakBST cmp l && weakBST cmp r

/-- The integer comparator `std::less`-style used for concrete runs. -/
def intCmp (a b : Int) : Bool := a < b

/-- Comparator on tagged values that compares only the key part; the tag
identifies the individual inserted element. -/
def tagCmp (a b : Int × Nat) : Bool := a.1 < b.1

/-- The contract the C++ class places on `Comparator`: a strict weak
ordering (spec §6). -/
structure IsSWO (cmp : T → T → Bool) : Prop where
  irrefl : ∀ a, cmp a a = false
  trans : ∀ a b c, cmp a b = true → cmp b c = true → cmp a c = true
  incompTrans : ∀ a b c, cmp a b = false → cmp b a = false →
    cmp b c = false → cmp c b = false → cmp a c = false

theorem IsSWO.asymm {cmp : T → T → Bool} (h : IsSWO cmp) {a b : T}
    (hab : cmp a b = true) : cmp b a = false := by
  by_contra hba
  have := h.trans a b a hab (by revert hba; cases cmp b a <;> simp)
  simp [h.irrefl a] at this

/-- In a strict weak order, `a < b` forces `a < c` or `c < b` for any `c`. -/
theorem IsSWO.lt_or_lt {cmp : T → T → Bool} (h : IsSWO cmp) {a b : T}
    (hab : cmp a b = true) (c : T) : cmp a c = true ∨ cmp c b = true := by
  by_cases hac : cmp a c = true
  · exact Or.inl hac
  by_cases hcb : cmp c b = true
  · exact Or.inr hcb
  exfalso
  rw [Bool.not_eq_true] at hac hcb
  by_cases hca : cmp c a = true
  · exact absurd (h.trans c a b hca hab) (by simp [hcb])
  by_cases hbc : cmp b c = true
  · exact absurd (h.trans a b c hab hbc) (by simp [hac])
  rw [Bool.not_eq_true] at hca hbc
  have := h.incompTrans a c b hac hca hcb hbc
  simp [hab] at this

/-- Transitivity of the associated total preorder `a ≤ b := ¬ cmp b a`. -/
theorem IsSWO.le_trans {cmp : T → T → Bool} (h : IsSWO cmp) {a b c : T}
    (hab : cmp b a = false) (hbc : cmp c b = false) : cmp c a = false := by
  by_contra hca
  rw [Bool.not_eq_false] at hca
  rcases h.lt_or_lt hca b with h1 | h1
  · simp [h1] at hbc
  · simp [h1] at hab

theorem intCmp_SWO : IsSWO intCmp := by
  constructor
  · intro a; simp [intCmp]
  · intro a b c h1 h2; simp only [intCmp, decide_eq_true_eq] at *; omega
  · intro a b c h1 h2 h3 h4
    simp only [intCmp, decide_eq_false_iff_not, not_lt] at *; omega

theorem tagCmp_SWO : IsSWO tagCmp := by
  constructor
  · intro a; simp [tagCmp]
  · intro a b c h1 h2; simp only [tagCmp, decide_eq_true_eq] at *; omega
  · intro a b c h1 h2 h3 h4
    simp only [tagCmp, decide_eq_false_iff_not, not_lt] at *; omega

/-! ## Basic structural lemmas -/

theorem depthF_eq_heightT {t : Tree T} (h : depthsOk t = true) :
    depthF t = heightT t := by
  cases t with
  | nil => rfl
  | node d es dep l r =>
    simp only [depthsOk, Bool.and_eq_true, beq_iff_eq] at h
    simp [depthF, heightT, h.1.1]

theorem subCnt_eq_sizeT {t : Tree T} (h : sizesOk t = true) :
    subCnt t = sizeT t := by
  cases t with
  | nil => rfl
  | node d es dep l r =>
    simp only [sizesOk, Bool.and_eq_true, beq_iff_eq] at h
    simp [subCnt, sizeT, h.1.1]

theorem validT_node {d : T} {es dep : Nat} {l r : Tree T} :
    validT (Tree.node d es dep l r) = true ↔
      es = sizeT l + sizeT r ∧ dep = max (heightT l) (heightT r) + 1 ∧
      heightT l ≤ heightT r + 1 ∧ heightT r ≤ heightT l + 1 ∧
      validT l = true ∧ validT r = true := by
  simp only [validT, sizesOk, depthsOk, avlBalanced, Bool.and_eq_true,
    beq_iff_eq, decide_eq_true_eq]
  tauto

theorem validT_sub {d : T} {es dep : Nat} {l r : Tree T}
    (h : validT (Tree.node d es dep l r) = true) :
    validT l = true ∧ validT r = true := by
  rw [validT_node] at h; tauto

@[simp] theorem validT_nil : validT (Tree.nil : Tree T) = true := rfl

@[simp] theorem heightT_mkNode {d : T} {l r : Tree T} :
    heightT (mkNode d l r) = max (heightT l) (heightT r) + 1 := rfl

@[simp] theorem sizeT_mkNode {d : T} {l r : Tree T} :
    sizeT (mkNode d l r) = sizeT l + sizeT r + 1 := rfl

@[simp] theorem inorder_mkNode {d : T} {l r : Tree T} :
    inorder (mkNode d l r) = inorder l ++ d :: inorder r := rfl

theorem validT_mkNode {d : T} {l r : Tree T}
    (hl : validT l = true) (hr : validT r = true)
    (h1 : heightT l ≤ heightT r + 1) (h2 : heightT r ≤ heightT l + 1) :
    validT (mkNode d l r) = true := by
  have hsl := (by simp [validT, Bool.and_eq_true] at hl; tauto : sizesOk l = true)
  have hsr := (by simp [validT, Bool.and_eq_true] at hr; tauto : sizesOk r = true)
  have hdl := (by simp [validT, Bool.and_eq_true] at hl; tauto : depthsOk l = true)
  have hdr := (by simp [validT, Bool.and_eq_true] at hr; tauto : depthsOk r = true)
  rw [mkNode, validT_node]
  refine ⟨?_, ?_, h1, h2, hl, hr⟩
  · rw [subCnt_eq_sizeT hsl, subCnt_eq_sizeT hsr]
  · rw [depthF_eq_heightT hdl, depthF_eq_heightT hdr]

/-! ## Reduction lemmas for `balance_node`, one per branch -/

theorem balance_node_rot_none {d : T} {es dep : Nat} {l r : Tree T}
    (h1 : ((depthF r : Int) - (depthF l : Int)) ≠ 2)
    (h2 : ((depthF r : Int) - (depthF l : Int)) ≠ -2) :
    balance_node (Tree.node d es dep l r)
      = Tree.node d (subCnt l + subCnt r) (max (depthF l) (depthF r) + 1) l r := by
  simp only [balance_node]
  rw [if_neg h1, if_neg h2]

theorem balance_node_rotL {d : T} {es dep : Nat} {l : Tree T}
    {dr : T} {esr depr : Nat} {rl rr : Tree T}
    (h1 : ((depthF (Tree.node dr esr depr rl rr) : Int) - (depthF l : Int)) = 2)
    (h2 : ¬ balanceF (Tree.node dr esr depr rl rr) < 0) :
    balance_node (Tree.node d es dep l (Tree.node dr esr depr rl rr))
      = mkNode dr (mkNode d l rl) rr := by
  simp only [balance_node]
  rw [if_pos h1, if_neg h2]
  rfl

theorem balance_node_rotRL {d : T} {es dep : Nat} {l : Tree T}
    {dr : T} {esr depr : Nat} {rr : Tree T}
    {da : T} {esa depa : Nat} {ra rb : Tree T}
    (h1 : ((depthF (Tree.node dr esr depr (Tree.node da esa depa ra rb) rr) : Int)
        - (depthF l : Int)) = 2)
    (h2 : balanceF (Tree.node dr esr depr (Tree.node da esa depa ra rb) rr) < 0) :
    balance_node (Tree.node d es dep l
        (Tree.node dr esr depr (Tree.node da esa depa ra rb) rr))
      = mkNode da (mkNode d l ra) (mkNode dr rb rr) := by
  simp only [balance_node]
  rw [if_pos h1, if_pos h2]
  rfl

theorem balance_node_rotR {d : T} {es dep : Nat} {r : Tree T}
    {dl : T} {esl depl : Nat} {ll lr : Tree T}
    (h1 : ((depthF r : Int) - (depthF (Tree.node dl esl depl ll lr) : Int)) ≠ 2)
    (h2 : ((depthF r : Int) - (depthF (Tree.node dl esl depl ll lr) : Int)) = -2)
    (h3 : ¬ balanceF (Tree.node dl esl depl ll lr) > 0) :
    balance_node (Tree.node d es dep (Tree.node dl esl depl ll lr) r)
      = mkNode dl ll (mkNode d lr r) := by
  simp only [balance_node]
  rw [if_neg h1, if_pos h2, if_neg h3]
  rfl

theorem balance_node_rotLR {d : T} {es dep : Nat} {r : Tree T}
    {dl : T} {esl depl : Nat} {ll : Tree T}
    {db : T} {esb depb : Nat} {la lb : Tree T}
    (h1 : ((depthF r : Int)
        - (depthF (Tree.node dl esl depl ll (Tree.node db esb depb la lb)) : Int)) ≠ 2)
    (h2 : ((depthF r : Int)
        - (depthF (Tree.node dl esl depl ll (Tree.node db esb depb la lb)) : Int)) = -2)
    (h3 : balanceF (Tree.node dl esl depl ll (Tree.node db esb depb la lb)) > 0) :
    balance_node (Tree.node d es dep
        (Tree.node dl esl depl ll (Tree.node db esb depb la lb)) r)
      = mkNode db (mkNode dl ll la) (mkNode d lb r) := by
  simp only [balance_node]
  rw [if_neg h1, if_pos h2, if_pos h3]
  rfl

theorem validT_sizesOk {t : Tree T} (h : validT t = true) : sizesOk t = true := by
  simp only [validT, Bool.and_eq_true] at h; tauto

theorem validT_depthsOk {t : Tree T} (h : validT t = true) : depthsOk t = true := by
  simp only [validT, Bool.and_eq_true] at h; tauto

/-- Full behaviour of `balance_node` on a node whose children carry correct
cached fields, are AVL, and whose heights differ by at most two: the result
is valid, keeps the in-order sequence and size, and its height is `max+1`
or, when a rotation fired, possibly `max`. -/
theorem balance_node_spec (d : T) (es dep : Nat) {l r : Tree T}
    (hvl : validT l = true) (hvr : validT r = true)
    (hd1 : heightT l ≤ heightT r + 2) (hd2 : heightT r ≤ heightT l + 2) :
    validT (balance_node (Tree.node d es dep l r)) = true ∧
    inorder (balance_node (Tree.node d es dep l r)) = inorder l ++ d :: inorder r ∧
    sizeT (balance_node (Tree.node d es dep l r)) = sizeT l + sizeT r + 1 ∧
    max (heightT l) (heightT r) ≤ heightT (balance_node (Tree.node d es dep l r)) ∧
    heightT (balance_node (Tree.node d es dep l r)) ≤ max (heightT l) (heightT r) + 1 ∧
    (heightT l ≤ heightT r + 1 → heightT r ≤ heightT l + 1 →
      heightT (balance_node (Tree.node d es dep l r)) = max (heightT l) (heightT r) + 1) := by
  have hdl : depthF l = heightT l := depthF_eq_heightT (validT_depthsOk hvl)
  have hdr : depthF r = heightT r := depthF_eq_heightT (validT_depthsOk hvr)
  by_cases hc2 : ((depthF r : Int) - (depthF l : Int)) = 2
  · -- balance factor +2: left rotation (possibly preceded by a right one)
    have hr2 : heightT r = heightT l + 2 := by rw [hdl, hdr] at hc2; omega
    cases r with
    | nil => simp [heightT] at hr2
    | node dr esr depr rl rr =>
      rcases validT_node.mp hvr with ⟨hesr, hdepr, hb1, hb2, hvrl, hvrr⟩
      have hda : depthF rl = heightT rl := depthF_eq_heightT (validT_depthsOk hvrl)
      have hdb : depthF rr = heightT rr := depthF_eq_heightT (validT_depthsOk hvrr)
      have hrh : max (heightT rl) (heightT rr) + 1 = heightT l + 2 := by
        simpa [heightT] using hr2
      by_cases hneg : balanceF (Tree.node dr esr depr rl rr) < 0
      · -- right child is left-heavy: double rotation
        have hba : heightT rr < heightT rl := by
          simp only [balanceF] at hneg
          rw [hda, hdb] at hneg
          omega
        have ha : heightT rl = heightT l + 1 := by omega
        have hb : heightT rr = heightT l := by omega
        cases rl with
        | nil => simp [heightT] at ha
        | node da esa depa ra rb =>
          rcases validT_node.mp hvrl with ⟨hesa, hdepa, hu1, hu2, hvra, hvrb⟩
          have huv : max (heightT ra) (heightT rb) + 1 = heightT l + 1 := by
            simpa [heightT] using ha
          rw [balance_node_rotRL hc2 hneg]
          refine ⟨?_, ?_, ?_, ?_, ?_, ?_⟩
          · exact validT_mkNode
              (validT_mkNode hvl hvra (by omega) (by omega))
              (validT_mkNode hvrb hvrr (by omega) (by omega))
              (by simp; omega) (by simp; omega)
          · simp [inorder]
          · simp [sizeT]; omega
          · simp [heightT]; omega
          · simp [heightT]; omega
          · intro hx1 hx2; omega
      · -- single left rotation
        have hba : heightT rl ≤ heightT rr := by
          simp only [balanceF] at hneg
          rw [hda, hdb] at hneg
          omega
        have hb : heightT rr = heightT l + 1 := by omega
        have ha : heightT l ≤ heightT rl := by omega
        rw [balance_node_rotL hc2 hneg]
        refine ⟨?_, ?_, ?_, ?_, ?_, ?_⟩
        · exact validT_mkNode
            (validT_mkNode hvl hvrl (by omega) (by omega)) hvrr
            (by simp; omega) (by simp; omega)
        · simp [inorder]
        · simp [sizeT]; omega
        · simp [heightT]; omega
        · simp [heightT]; omega
        · intro hx1 hx2; omega
  · by_cases hcm2 : ((depthF r : Int) - (depthF l : Int)) = -2
    · -- balance factor -2: right rotation (possibly preceded by a left one)
      have hl2 : heightT l = heightT r + 2 := by rw [hdl, hdr] at hcm2; omega
      cases l with
      | nil => simp [heightT] at hl2
      | node dl esl depl ll lr =>
        rcases validT_node.mp hvl with ⟨hesl, hdepl, hb1, hb2, hvll, hvlr⟩
        have hda : depthF ll = heightT ll := depthF_eq_heightT (validT_depthsOk hvll)
        have hdb : depthF lr = heightT lr := depthF_eq_heightT (validT_depthsOk hvlr)
        have hlh : max (heightT ll) (heightT lr) + 1 = heightT r + 2 := by
          simpa [heightT] using hl2
        by_cases hpos : balanceF (Tree.node dl esl depl ll lr) > 0
        · -- left child is right-heavy: double rotation
          have hba : heightT ll < heightT lr := by
            simp only [balanceF] at hpos
            rw [hda, hdb] at hpos
            omega
          have ha : heightT lr = heightT r + 1 := by omega
          have hb : heightT ll = heightT r := by omega
          cases lr with
          | nil => simp [heightT] at ha
          | node db esb depb la lb =>
            rcases validT_node.mp hvlr with ⟨hesb, hdepb, hu1, hu2, hvla, hvlb⟩
            have huv : max (heightT la) (heightT lb) + 1 = heightT r + 1 := by
              simpa [heightT] using ha
            rw [balance_node_rotLR hc2 hcm2 hpos]
            refine ⟨?_, ?_, ?_, ?_, ?_, ?_⟩
            · exact validT_mkNode
                (validT_mkNode hvll hvla (by omega) (by omega))
                (validT_mkNode hvlb hvr (by omega) (by omega))
                (by simp; omega) (by simp; omega)
            · simp [inorder]
            · simp [sizeT]; omega
            · simp [heightT]; omega
            · simp [heightT]; omega
            · intro hx1 hx2; omega
        · -- single right rotation
          have hba : heightT lr ≤ heightT ll := by
            simp only [balanceF] at hpos
            rw [hda, hdb] at hpos
            omega
          have hb : heightT ll = heightT r + 1 := by omega
          have ha : heightT r ≤ heightT lr := by omega
          rw [balance_node_rotR hc2 hcm2 hpos]
          refine ⟨?_, ?_, ?_, ?_, ?_, ?_⟩
          · exact validT_mkNode hvll
              (validT_mkNode hvlr hvr (by omega) (by omega))
              (by simp; omega) (by simp; omega)
          · simp [inorder]
          · simp [sizeT]; omega
          · simp [heightT]; omega
          · simp [heightT]; omega
          · intro hx1 hx2; omega
    · -- |balance factor| ≤ 1: only the cached fields are refreshed
      rw [balance_node_rot_none hc2 hcm2]
      have hsl := validT_sizesOk hvl
      have hsr := validT_sizesOk hvr
      have hbal : heightT l ≤ heightT r + 1 ∧ heightT r ≤ heightT l + 1 := by
        rw [hdl, hdr] at hc2 hcm2; omega
      refine ⟨?_, ?_, ?_, ?_, ?_, ?_⟩
      · rw [validT_node]
        exact ⟨by rw [subCnt_eq_sizeT hsl, subCnt_eq_sizeT hsr],
          by rw [hdl, hdr], hbal.1, hbal.2, hvl, hvr⟩
      · simp [inorder]
      · simp [sizeT, subCnt_eq_sizeT hsl, subCnt_eq_sizeT hsr]
      · simp [heightT]
      · simp [heightT]
      · intro hx1 hx2; simp [heightT]

theorem length_inorder (t : Tree T) : (inorder t).length = sizeT t := by
  induction t with
  | nil => rfl
  | node d es dep l r ihl ihr => simp [inorder, sizeT, ihl, ihr]; omega

theorem heightT_eq_zero {t : Tree T} (h : heightT t = 0) : t = .nil := by
  cases t with
  | nil => rfl
  | node d es dep l r => simp [heightT] at h

theorem inorder_ne_nil {d : T} {es dep : Nat} {l r : Tree T} :
    inorder (Tree.node d es dep l r) ≠ [] := by
  simp [inorder]

/-- On a node whose cached fields are already correct and which is already
balanced, `balance_node` is the identity (this is what makes `remove` on an
absent key a structural no-op). -/
theorem balance_node_id {d : T} {es dep : Nat} {l r : Tree T}
    (hv : validT (Tree.node d es dep l r) = true) :
    balance_node (Tree.node d es dep l r) = Tree.node d es dep l r := by
  rcases validT_node.mp hv with ⟨hes, hdep, hb1, hb2, hvl, hvr⟩
  have hdl : depthF l = heightT l := depthF_eq_heightT (validT_depthsOk hvl)
  have hdr : depthF r = heightT r := depthF_eq_heightT (validT_depthsOk hvr)
  rw [balance_node_rot_none (by rw [hdl, hdr]; omega) (by rw [hdl, hdr]; omega)]
  rw [subCnt_eq_sizeT (validT_sizesOk hvl), subCnt_eq_sizeT (validT_sizesOk hvr),
    hdl, hdr, ← hes, ← hdep]

/-- Structural effect of `insert_rec`: validity is preserved, the height
grows by zero or one, and the size grows by one. -/
theorem insert_rec_valid (cmp : T → T → Bool) (x : T) :
    ∀ t : Tree T, ∀ pos : Nat, validT t = true →
    validT (insert_rec cmp t x pos).1 = true ∧
    heightT t ≤ heightT (insert_rec cmp t x pos).1 ∧
    heightT (insert_rec cmp t x pos).1 ≤ heightT t + 1 ∧
    sizeT (insert_rec cmp t x pos).1 = sizeT t + 1 := by
  intro t
  induction t with
  | nil =>
    intro pos _
    refine ⟨?_, by simp [insert_rec, heightT], by simp [insert_rec, heightT],
      by simp [insert_rec, sizeT]⟩
    simp [insert_rec, validT, sizesOk, depthsOk, avlBalanced, sizeT, heightT]
  | node d es dep l r ihl ihr =>
    intro pos hv
    rcases validT_node.mp hv with ⟨hes, hdep, hb1, hb2, hvl, hvr⟩
    by_cases hc : cmp x d = true
    · rcases ihl pos hvl with ⟨ih1, ih2, ih3, ih4⟩
      have hbs := balance_node_spec d (es + 1) dep ih1 hvr (by omega) (by omega)
      rcases hbs with ⟨b1, b2, b3, b4, b5, b6⟩
      simp only [insert_rec, hc, if_true]
      refine ⟨b1, ?_, ?_, ?_⟩
      · by_cases hdiff : heightT (insert_rec cmp l x pos).1 ≤ heightT r + 1 ∧
            heightT r ≤ heightT (insert_rec cmp l x pos).1 + 1
        · have := b6 hdiff.1 hdiff.2; simp [heightT]; omega
        · simp [heightT]; omega
      · simp [heightT]; omega
      · simp [sizeT]; omega
    · rcases ihr (pos + (subCnt l + 1)) hvr with ⟨ih1, ih2, ih3, ih4⟩
      have hbs := balance_node_spec d (es + 1) dep hvl ih1 (by omega) (by omega)
      rcases hbs with ⟨b1, b2, b3, b4, b5, b6⟩
      simp only [insert_rec, hc, if_false, Bool.false_eq_true]
      refine ⟨b1, ?_, ?_, ?_⟩
      · by_cases hdiff : heightT l ≤ heightT (insert_rec cmp r x (pos + (subCnt l + 1))).1 + 1 ∧
            heightT (insert_rec cmp r x (pos + (subCnt l + 1))).1 ≤ heightT l + 1
        · have := b6 hdiff.1 hdiff.2; simp [heightT]; omega
        · simp [heightT]; omega
      · simp [heightT]; omega
      · simp [sizeT]; omega

/-! ## List-level specification of insertion -/

/-- Non-decreasing with respect to `cmp` (ties in any order). -/
def SortedLe (cmp : T → T → Bool) (l : List T) : Prop :=
  List.Pairwise (fun a b => cmp b a = false) l

/-- Ordered insertion that places `x` directly before the first element
strictly greater than `x` — i.e. after every element not greater than `x`.
This is the list-level meaning of the duplicates-go-right descent. -/
def insL (cmp : T → T → Bool) (x : T) : List T → List T
  | [] => [x]
  | y :: ys => if cmp x y then x :: y :: ys else y :: insL cmp x ys

theorem mem_insL (cmp : T → T → Bool) (x z : T) :
    ∀ L : List T, z ∈ insL cmp x L ↔ z = x ∨ z ∈ L := by
  intro L
  induction L with
  | nil => simp [insL]
  | cons y ys ih =>
    by_cases h : cmp x y = true
    · simp [insL, h]
    · simp [insL, h, ih]; tauto

theorem perm_insL (cmp : T → T → Bool) (x : T) :
    ∀ L : List T, (insL cmp x L).Perm (x :: L) := by
  intro L
  induction L with
  | nil => simp [insL]
  | cons y ys ih =>
    by_cases h : cmp x y = true
    · simp [insL, h]
    · simp only [insL, h, if_false, Bool.false_eq_true]
      exact (ih.cons y).trans (List.Perm.swap x y ys)

theorem sorted_insL {cmp : T → T → Bool} (hswo : IsSWO cmp) (x : T) :
    ∀ L : List T, SortedLe cmp L → SortedLe cmp (insL cmp x L) := by
  intro L
  induction L with
  | nil => intro _; simp [insL, SortedLe]
  | cons y ys ih =>
    intro hs
    rcases (List.pairwise_cons.mp hs) with ⟨hy, hys⟩
    by_cases h : cmp x y = true
    · simp only [insL, h, if_true]
      refine List.pairwise_cons.mpr ⟨?_, hs⟩
      intro z hz
      rcases List.mem_cons.mp hz with rfl | hz2
      · exact hswo.asymm h
      · exact hswo.le_trans (hswo.asymm h) (hy z hz2)
    · simp only [insL, h, if_false, Bool.false_eq_true]
      refine List.pairwise_cons.mpr ⟨?_, ih hys⟩
      intro z hz
      rcases (mem_insL cmp x z ys).mp hz with rfl | hz2
      · simpa using h
      · exact hy z hz2

theorem insL_append_ge {cmp : T → T → Bool} {x : T} :
    ∀ L M : List T, (∀ y ∈ L, cmp x y = false) →
    insL cmp x (L ++ M) = L ++ insL cmp x M := by
  intro L
  induction L with
  | nil => intro M _; simp
  | cons y ys ih =>
    intro M hall
    have hy : cmp x y = false := hall y (by simp)
    simp only [List.cons_append, insL, hy, if_false, Bool.false_eq_true, List.append_eq]
    rw [ih M (fun z hz => hall z (by simp [hz]))]

theorem insL_append_lt {cmp : T → T → Bool} {x d : T} (hd : cmp x d = true) :
    ∀ L R : List T, insL cmp x (L ++ d :: R) = insL cmp x L ++ d :: R := by
  intro L
  induction L with
  | nil => intro R; simp [insL, hd]
  | cons y ys ih =>
    intro R
    by_cases h : cmp x y = true
    · simp [insL, h]
    · simp only [List.cons_append, insL, h, if_false, Bool.false_eq_true, List.append_eq]
      rw [ih R]

/-- In a sorted list, `x` lands exactly behind the elements counted by
`countP (fun y => ! cmp x y)`. -/
theorem insL_getElem {cmp : T → T → Bool} (hswo : IsSWO cmp) (x : T) :
    ∀ L : List T, SortedLe cmp L →
    (insL cmp x L)[L.countP (fun y => ! cmp x y)]? = some x := by
  intro L
  induction L with
  | nil => simp [insL]
  | cons y ys ih =>
    intro hs
    rcases (List.pairwise_cons.mp hs) with ⟨hy, hys⟩
    by_cases h : cmp x y = true
    · have hzero : List.countP (fun y => ! cmp x y) (y :: ys) = 0 := by
        rw [List.countP_eq_zero]
        intro z hz
        rcases List.mem_cons.mp hz with rfl | hz2
        · simp [h]
        · rcases hswo.lt_or_lt h z with h2 | h2
          · simp [h2]
          · rw [hy z hz2] at h2; cases h2
      rw [hzero]
      simp [insL, h]
    · have hcnt : List.countP (fun y => ! cmp x y) (y :: ys)
          = List.countP (fun y => ! cmp x y) ys + 1 := by
        rw [List.countP_cons]
        simp [h]
      rw [hcnt]
      simp only [insL, h, if_false, Bool.false_eq_true]
      simpa using ih hys

theorem sortedLe_append_left {cmp : T → T → Bool} {L M : List T}
    (h : SortedLe cmp (L ++ M)) : SortedLe cmp L :=
  ((List.pairwise_append.mp h).1)

theorem sortedLe_append_right {cmp : T → T → Bool} {L M : List T}
    (h : SortedLe cmp (L ++ M)) : SortedLe cmp M :=
  ((List.pairwise_append.mp h).2.1)

theorem sortedLe_cross {cmp : T → T → Bool} {L M : List T}
    (h : SortedLe cmp (L ++ M)) : ∀ a ∈ L, ∀ b ∈ M, cmp b a = false :=
  ((List.pairwise_append.mp h).2.2)

/-- In-order effect of `insert_rec` on a valid sorted tree: ordered
insertion behind every element not greater than the new one. -/
theorem insert_rec_inorder {cmp : T → T → Bool} (hswo : IsSWO cmp) (x : T) :
    ∀ t : Tree T, ∀ pos : Nat, validT t = true → SortedLe cmp (inorder t) →
    inorder (insert_rec cmp t x pos).1 = insL cmp x (inorder t) := by
  intro t
  induction t with
  | nil => intro pos _ _; simp [insert_rec, inorder, insL]
  | node d es dep l r ihl ihr =>
    intro pos hv hs
    rcases validT_node.mp hv with ⟨hes, hdep, hb1, hb2, hvl, hvr⟩
    rw [inorder] at hs
    have hsl : SortedLe cmp (inorder l) := sortedLe_append_left hs
    have hsr : SortedLe cmp (inorder r) :=
      List.Pairwise.of_cons (sortedLe_append_right hs)
    have hld : ∀ y ∈ inorder l, cmp d y = false := by
      intro y hy
      exact sortedLe_cross hs y hy d (by simp)
    by_cases hc : cmp x d = true
    · have hvi := insert_rec_valid cmp x l pos hvl
      have hbs := balance_node_spec d (es + 1) dep hvi.1 hvr
        (by omega) (by omega)
      simp only [insert_rec, hc, if_true]
      rw [hbs.2.1, ihl pos hvl hsl, inorder, insL_append_lt hc]
    · have hvi := insert_rec_valid cmp x r (pos + (subCnt l + 1)) hvr
      have hbs := balance_node_spec d (es + 1) dep hvl hvi.1
        (by omega) (by omega)
      simp only [insert_rec, hc, if_false, Bool.false_eq_true]
      rw [hbs.2.1, ihr (pos + (subCnt l + 1)) hvr hsr, inorder]
      have hall : ∀ y ∈ inorder l ++ [d], cmp x y = false := by
        intro y hy
        rcases List.mem_append.mp hy with hy2 | hy2
        · exact hswo.le_trans (hld y hy2) (by simpa using hc)
        · simp at hy2
          subst hy2
          simpa using hc
      have h2 := insL_append_ge (inorder l ++ [d]) (inorder r) hall
      simp only [List.append_assoc, List.singleton_append] at h2
      rw [h2]

/-- The position reported by `insert_rec`: the entry accumulator plus the
number of stored elements comparing not-greater than the new element. -/
theorem insert_rec_pos {cmp : T → T → Bool} (hswo : IsSWO cmp) (x : T) :
    ∀ t : Tree T, ∀ pos : Nat, validT t = true → SortedLe cmp (inorder t) →
    (insert_rec cmp t x pos).2
      = pos + (inorder t).countP (fun y => ! cmp x y) := by
  intro t
  induction t with
  | nil => intro pos _ _; simp [insert_rec, inorder]
  | node d es dep l r ihl ihr =>
    intro pos hv hs
    rcases validT_node.mp hv with ⟨hes, hdep, hb1, hb2, hvl, hvr⟩
    rw [inorder] at hs
    have hsl : SortedLe cmp (inorder l) := sortedLe_append_left hs
    have hsr : SortedLe cmp (inorder r) :=
      List.Pairwise.of_cons (sortedLe_append_right hs)
    have hld : ∀ y ∈ inorder l, cmp d y = false := by
      intro y hy
      exact sortedLe_cross hs y hy d (by simp)
    have hdr : ∀ y ∈ inorder r, cmp y d = false := by
      have := List.pairwise_cons.mp (sortedLe_append_right hs)
      exact this.1
    by_cases hc : cmp x d = true
    · simp only [insert_rec, hc, if_true]
      rw [ihl pos hvl hsl, inorder]
      have hzero : List.countP (fun y => ! cmp x y) (d :: inorder r) = 0 := by
        rw [List.countP_eq_zero]
        intro z hz
        rcases List.mem_cons.mp hz with rfl | hz2
        · simp [hc]
        · rcases hswo.lt_or_lt hc z with h2 | h2
          · simp [h2]
          · rw [hdr z hz2] at h2; cases h2
      rw [List.countP_append, hzero]
      omega
    · simp only [insert_rec, hc, if_false, Bool.false_eq_true]
      rw [ihr (pos + (subCnt l + 1)) hvr hsr, inorder]
      have hlen : List.countP (fun y => ! cmp x y) (inorder l)
          = (inorder l).length := by
        rw [List.countP_eq_length]
        intro z hz
        have : cmp x z = false :=
          hswo.le_trans (hld z hz) (by simpa using hc)
        simp [this]
      rw [List.countP_append, List.countP_cons, hlen,
        subCnt_eq_sizeT (validT_sizesOk hvl), ← length_inorder l]
      simp only [Bool.not_eq_true']
      simp [hc]
      omega

/-- `remove_min` on a valid tree: stays valid, loses at most one height
level, loses exactly one node — the in-order first one, which it reports. -/
theorem remove_min_spec : ∀ t : Tree T, validT t = true →
    validT (remove_min t).1 = true ∧
    heightT t ≤ heightT (remove_min t).1 + 1 ∧
    heightT (remove_min t).1 ≤ heightT t ∧
    sizeT (remove_min t).1 = sizeT t - 1 ∧
    (t ≠ .nil → ∃ m, (remove_min t).2 = some m ∧
      inorder t = m :: inorder (remove_min t).1) := by
  intro t
  induction t with
  | nil => intro _; simp [remove_min, heightT, sizeT]
  | node d es dep l r ihl ihr =>
    intro hv
    rcases validT_node.mp hv with ⟨hes, hdep, hb1, hb2, hvl, hvr⟩
    cases l with
    | nil =>
      simp only [remove_min]
      refine ⟨hvr, ?_, ?_, ?_, ?_⟩
      · simp [heightT] at *; try omega
      · simp [heightT] at *; try omega
      · simp [sizeT]
      · intro _
        exact ⟨d, rfl, by simp [inorder]⟩
    | node dl esl depl ll rl =>
      rcases ihl hvl with ⟨ih1, ih2, ih3, ih4, ih5⟩
      rcases ih5 (by simp) with ⟨m, hm1, hm2⟩
      have hbs := balance_node_spec d (es - 1) dep ih1 hvr
        (by simp [heightT] at *; omega) (by simp [heightT] at *; omega)
      rcases hbs with ⟨b1, b2, b3, b4, b5, b6⟩
      simp only [remove_min]
      refine ⟨b1, ?_, ?_, ?_, ?_⟩
      · by_cases hdiff :
            heightT (remove_min (Tree.node dl esl depl ll rl)).1 ≤ heightT r + 1 ∧
            heightT r ≤ heightT (remove_min (Tree.node dl esl depl ll rl)).1 + 1
        · have := b6 hdiff.1 hdiff.2; simp [heightT] at *; omega
        · simp [heightT] at *; omega
      · by_cases hdiff :
            heightT (remove_min (Tree.node dl esl depl ll rl)).1 ≤ heightT r + 1 ∧
            heightT r ≤ heightT (remove_min (Tree.node dl esl depl ll rl)).1 + 1
        · have := b6 hdiff.1 hdiff.2; simp [heightT] at *; omega
        · simp [heightT] at *; omega
      · have hsz : sizeT (Tree.node dl esl depl ll rl)
            = sizeT ll + sizeT rl + 1 := rfl
        simp [sizeT] at *
        omega
      · intro _
        refine ⟨m, hm1, ?_⟩
        rw [b2, inorder, hm2]
        simp

/-- `remove_max`, mirror image of `remove_min_spec`. -/
theorem remove_max_spec : ∀ t : Tree T, validT t = true →
    validT (remove_max t).1 = true ∧
    heightT t ≤ heightT (remove_max t).1 + 1 ∧
    heightT (remove_max t).1 ≤ heightT t ∧
    sizeT (remove_max t).1 = sizeT t - 1 ∧
    (t ≠ .nil → ∃ m, (remove_max t).2 = some m ∧
      inorder t = inorder (remove_max t).1 ++ [m]) := by
  intro t
  induction t with
  | nil => intro _; simp [remove_max, heightT, sizeT]
  | node d es dep l r ihl ihr =>
    intro hv
    rcases validT_node.mp hv with ⟨hes, hdep, hb1, hb2, hvl, hvr⟩
    cases r with
    | nil =>
      simp only [remove_max]
      refine ⟨hvl, ?_, ?_, ?_, ?_⟩
      · simp [heightT] at *; try omega
      · simp [heightT] at *; try omega
      · simp [sizeT]
      · intro _
        exact ⟨d, rfl, by simp [inorder]⟩
    | node dr esr depr lr rr =>
      rcases ihr hvr with ⟨ih1, ih2, ih3, ih4, ih5⟩
      rcases ih5 (by simp) with ⟨m, hm1, hm2⟩
      have hbs := balance_node_spec d (es - 1) dep hvl ih1
        (by simp [heightT] at *; omega) (by simp [heightT] at *; omega)
      rcases hbs with ⟨b1, b2, b3, b4, b5, b6⟩
      simp only [remove_max]
      refine ⟨b1, ?_, ?_, ?_, ?_⟩
      · by_cases hdiff :
            heightT l ≤ heightT (remove_max (Tree.node dr esr depr lr rr)).1 + 1 ∧
            heightT (remove_max (Tree.node dr esr depr lr rr)).1 ≤ heightT l + 1
        · have := b6 hdiff.1 hdiff.2; simp [heightT] at *; omega
        · simp [heightT] at *; omega
      · by_cases hdiff :
            heightT l ≤ heightT (remove_max (Tree.node dr esr depr lr rr)).1 + 1 ∧
            heightT (remove_max (Tree.node dr esr depr lr rr)).1 ≤ heightT l + 1
        · have := b6 hdiff.1 hdiff.2; simp [heightT] at *; omega
        · simp [heightT] at *; omega
      · have hsz : sizeT (Tree.node dr esr depr lr rr)
            = sizeT lr + sizeT rr + 1 := rfl
        simp [sizeT] at *
        omega
      · intro _
        refine ⟨m, hm1, ?_⟩
        rw [b2, inorder, hm2]
        simp

/-- Master lemma for `remove_rec` started with `was_deleted = false` on a
valid tree: the flag comes back `false` (the source never sets it); the
tree stays valid; the height drops by at most one; and either no node
compared equal to `key` was hit (tree returned unchanged, no value
written), or the value of the hit node is returned and exactly that node's
in-order occurrence is excised. -/
theorem remove_rec_spec (cmp : T → T → Bool) (key : T) :
    ∀ t : Tree T, validT t = true →
    (remove_rec cmp t key false).2.2 = false ∧
    validT (remove_rec cmp t key false).1 = true ∧
    heightT t ≤ heightT (remove_rec cmp t key false).1 + 1 ∧
    heightT (remove_rec cmp t key false).1 ≤ heightT t ∧
    (((remove_rec cmp t key false).2.1 = none ∧ (remove_rec cmp t key false).1 = t) ∨
      (∃ m L1 L2, (remove_rec cmp t key false).2.1 = some m ∧
        cmp m key = false ∧ cmp key m = false ∧
        inorder t = L1 ++ m :: L2 ∧
        inorder (remove_rec cmp t key false).1 = L1 ++ L2)) := by
  intro t
  induction t with
  | nil =>
    intro _
    exact ⟨rfl, rfl, by simp [remove_rec], by simp [remove_rec],
      Or.inl ⟨rfl, rfl⟩⟩
  | node d es dep l r ihl ihr =>
    intro hv
    rcases validT_node.mp hv with ⟨hes, hdep, hb1, hb2, hvl, hvr⟩
    by_cases h1 : cmp d key = true
    · -- descend right
      rcases ihr hvr with ⟨w0, w1, w2, w3, wdis⟩
      simp only [remove_rec, h1, if_true, w0, Bool.false_eq_true, if_false]
      rcases wdis with ⟨hnone, heq⟩ | ⟨m, L1, L2, hm, hmk1, hmk2, hio1, hio2⟩
      · rw [heq, balance_node_id hv]
        exact ⟨trivial, hv, by omega, by omega, Or.inl ⟨hnone, rfl⟩⟩
      · have hbs := balance_node_spec d es dep hvl w1 (by omega) (by omega)
        rcases hbs with ⟨b1, b2, b3, b4, b5, b6⟩
        refine ⟨trivial, b1, ?_, ?_, ?_⟩
        · by_cases hdiff : heightT l ≤ heightT (remove_rec cmp r key false).1 + 1 ∧
              heightT (remove_rec cmp r key false).1 ≤ heightT l + 1
          · have := b6 hdiff.1 hdiff.2; simp [heightT] at *; omega
          · simp [heightT] at *; omega
        · by_cases hdiff : heightT l ≤ heightT (remove_rec cmp r key false).1 + 1 ∧
              heightT (remove_rec cmp r key false).1 ≤ heightT l + 1
          · have := b6 hdiff.1 hdiff.2; simp [heightT] at *; omega
          · simp [heightT] at *; omega
        · right
          refine ⟨m, inorder l ++ d :: L1, L2, hm, hmk1, hmk2, ?_, ?_⟩
          · rw [inorder, hio1]; simp
          · rw [b2, hio2]; simp
    · by_cases h2 : cmp key d = true
      · -- descend left
        rcases ihl hvl with ⟨w0, w1, w2, w3, wdis⟩
        simp only [remove_rec, h1, h2, if_true, Bool.false_eq_true, if_false,
          w0]
        rcases wdis with ⟨hnone, heq⟩ | ⟨m, L1, L2, hm, hmk1, hmk2, hio1, hio2⟩
        · rw [heq, balance_node_id hv]
          exact ⟨trivial, hv, by omega, by omega, Or.inl ⟨hnone, rfl⟩⟩
        · have hbs := balance_node_spec d es dep w1 hvr (by omega) (by omega)
          rcases hbs with ⟨b1, b2, b3, b4, b5, b6⟩
          refine ⟨trivial, b1, ?_, ?_, ?_⟩
          · by_cases hdiff : heightT (remove_rec cmp l key false).1 ≤ heightT r + 1 ∧
                heightT r ≤ heightT (remove_rec cmp l key false).1 + 1
            · have := b6 hdiff.1 hdiff.2; simp [heightT] at *; omega
            · simp [heightT] at *; omega
          · by_cases hdiff : heightT (remove_rec cmp l key false).1 ≤ heightT r + 1 ∧
                heightT r ≤ heightT (remove_rec cmp l key false).1 + 1
            · have := b6 hdiff.1 hdiff.2; simp [heightT] at *; omega
            · simp [heightT] at *; omega
          · right
            refine ⟨m, L1, L2 ++ d :: inorder r, hm, hmk1, hmk2, ?_, ?_⟩
            · rw [inorder, hio1]; simp
            · rw [b2, hio2]; simp
      · -- this is the matching node
        have h1f : cmp d key = false := by revert h1; cases cmp d key <;> simp
        have h2f : cmp key d = false := by revert h2; cases cmp key d <;> simp
        have hdl : depthF l = heightT l := depthF_eq_heightT (validT_depthsOk hvl)
        have hdr : depthF r = heightT r := depthF_eq_heightT (validT_depthsOk hvr)
        by_cases h3 : depthF r = 0 ∧ depthF l = 0
        · -- both children are null: unlink the leaf
          have hln : l = .nil := heightT_eq_zero (by omega)
          have hrn : r = .nil := heightT_eq_zero (by omega)
          subst hln; subst hrn
          have hred : remove_rec cmp (Tree.node d es dep Tree.nil Tree.nil) key false
              = (Tree.nil, some d, false) := by
            simp [remove_rec, h1f, h2f, depthF]
          rw [hred]
          refine ⟨rfl, rfl, by simp [heightT], by simp [heightT], ?_⟩
          exact Or.inr ⟨d, [], [], rfl, h1f, h2f, by simp [inorder], by simp [inorder]⟩
        · by_cases h4 : depthF l ≤ depthF r
          · -- promote the minimum of the right subtree
            have hrne : r ≠ .nil := by
              intro hrn; subst hrn
              simp [depthF] at h3 h4
              omega
            rcases remove_min_spec r hvr with ⟨m1, m2, m3, m4, m5⟩
            rcases m5 hrne with ⟨m, hm1, hm2⟩
            simp only [remove_rec, h1f, h2f, Bool.false_eq_true, if_false, h3,
              h4, if_true, decide_eq_true_eq, Bool.and_eq_true, hm1,
              Option.getD_some]
            have hbs := balance_node_spec m es dep hvl m1 (by omega) (by omega)
            rcases hbs with ⟨b1, b2, b3, b4, b5, b6⟩
            refine ⟨trivial, b1, ?_, ?_, ?_⟩
            · by_cases hdiff : heightT l ≤ heightT (remove_min r).1 + 1 ∧
                  heightT (remove_min r).1 ≤ heightT l + 1
              · have := b6 hdiff.1 hdiff.2; simp [heightT] at *; omega
              · simp [heightT] at *; omega
            · by_cases hdiff : heightT l ≤ heightT (remove_min r).1 + 1 ∧
                  heightT (remove_min r).1 ≤ heightT l + 1
              · have := b6 hdiff.1 hdiff.2; simp [heightT] at *; omega
              · simp [heightT] at *; omega
            · right
              refine ⟨d, inorder l, m :: inorder (remove_min r).1, rfl, h1f, h2f, ?_, ?_⟩
              · rw [inorder, hm2]
              · rw [b2]
          · -- promote the maximum of the left subtree
            have hlne : l ≠ .nil := by
              intro hln; subst hln
              simp [depthF] at h4
            rcases remove_max_spec l hvl with ⟨m1, m2, m3, m4, m5⟩
            rcases m5 hlne with ⟨m, hm1, hm2⟩
            simp only [remove_rec, h1f, h2f, Bool.false_eq_true, if_false, h3,
              h4, if_true, decide_eq_true_eq, Bool.and_eq_true, hm1,
              Option.getD_some]
            have hbs := balance_node_spec m es dep m1 hvr (by omega) (by omega)
            rcases hbs with ⟨b1, b2, b3, b4, b5, b6⟩
            refine ⟨trivial, b1, ?_, ?_, ?_⟩
            · by_cases hdiff : heightT (remove_max l).1 ≤ heightT r + 1 ∧
                  heightT r ≤ heightT (remove_max l).1 + 1
              · have := b6 hdiff.1 hdiff.2; simp [heightT] at *; omega
              · simp [heightT] at *; omega
            · by_cases hdiff : heightT (remove_max l).1 ≤ heightT r + 1 ∧
                  heightT r ≤ heightT (remove_max l).1 + 1
              · have := b6 hdiff.1 hdiff.2; simp [heightT] at *; omega
              · simp [heightT] at *; omega
            · right
              refine ⟨d, inorder (remove_max l).1 ++ [m], inorder r, rfl, h1f, h2f, ?_, ?_⟩
              · rw [inorder, hm2]
              · rw [b2]; simp

/-- On the node whose data compares equal to the key, `remove_rec` always
reports that node's data, whichever removal shape runs. -/
theorem remove_rec_hit {cmp : T → T → Bool} {d : T} {es dep : Nat}
    {l r : Tree T} {key : T} {wd : Bool}
    (h1f : cmp d key = false) (h2f : cmp key d = false) :
    (remove_rec cmp (Tree.node d es dep l r) key wd).2.1 = some d := by
  simp only [remove_rec, h1f, h2f, Bool.false_eq_true, if_false]
  split_ifs <;> simp

/-- Completeness of the removal descent on a sorted valid tree: if some
stored element compares equal to the key, a value is reported. -/
theorem remove_rec_found {cmp : T → T → Bool} (hswo : IsSWO cmp) (key : T) :
    ∀ t : Tree T, SortedLe cmp (inorder t) →
    (∃ y ∈ inorder t, cmp y key = false ∧ cmp key y = false) →
    ∃ m, (remove_rec cmp t key false).2.1 = some m := by
  intro t
  induction t with
  | nil => intro _ hex; simp [inorder] at hex
  | node d es dep l r ihl ihr =>
    intro hs hex
    rw [inorder] at hs
    rcases hex with ⟨y, hy, hyk1, hyk2⟩
    by_cases h1 : cmp d key = true
    · -- the match must lie to the right
      have hyr : y ∈ inorder r := by
        rw [inorder] at hy
        rcases List.mem_append.mp hy with hy2 | hy2
        · exfalso
          have hdy : cmp d y = false := sortedLe_cross hs y hy2 d (by simp)
          rcases hswo.lt_or_lt h1 y with hh | hh
          · rw [hdy] at hh; cases hh
          · rw [hyk1] at hh; cases hh
        · rcases List.mem_cons.mp hy2 with rfl | hy3
          · rw [h1] at hyk1; cases hyk1
          · exact hy3
      rcases ihr (List.Pairwise.of_cons (sortedLe_append_right hs))
          ⟨y, hyr, hyk1, hyk2⟩ with ⟨m, hm⟩
      refine ⟨m, ?_⟩
      simpa [remove_rec, h1] using hm
    · by_cases h2 : cmp key d = true
      · have hyl : y ∈ inorder l := by
          rw [inorder] at hy
          rcases List.mem_append.mp hy with hy2 | hy2
          · exact hy2
          · exfalso
            rcases List.mem_cons.mp hy2 with rfl | hy3
            · rw [h2] at hyk2; cases hyk2
            · have hyd : cmp y d = false :=
                (List.pairwise_cons.mp (sortedLe_append_right hs)).1 y hy3
              rcases hswo.lt_or_lt h2 y with hh | hh
              · rw [hyk2] at hh; cases hh
              · rw [hyd] at hh; cases hh
        rcases ihl (sortedLe_append_left hs) ⟨y, hyl, hyk1, hyk2⟩ with ⟨m, hm⟩
        refine ⟨m, ?_⟩
        have h1f : cmp d key = false := by revert h1; cases cmp d key <;> simp
        simpa [remove_rec, h1f, h2] using hm
      · have h1f : cmp d key = false := by revert h1; cases cmp d key <;> simp
        have h2f : cmp key d = false := by revert h2; cases cmp key d <;> simp
        exact ⟨d, remove_rec_hit h1f h2f⟩

/-! ## The reachable-state invariant -/

/-- The invariant every reachable `AVLTree` state satisfies: correct cached
fields, AVL balance, in-order sequence sorted, and at least as many counted
elements as stored nodes. -/
def goodState (cmp : T → T → Bool) (s : State T) : Prop :=
  validT s.root = true ∧ SortedLe cmp (inorder s.root) ∧
  sizeT s.root ≤ s.element_count

theorem applyOp_good {cmp : T → T → Bool} (hswo : IsSWO cmp) {s : State T}
    (hg : goodState cmp s) (op : Op T) : goodState cmp (applyOp cmp s op) := by
  rcases hg with ⟨hv, hs, hn⟩
  cases op with
  | ins x =>
    refine ⟨(insert_rec_valid cmp x s.root 0 hv).1, ?_, ?_⟩
    · rw [applyOp, insert]
      rw [insert_rec_inorder hswo x s.root 0 hv hs]
      exact sorted_insL hswo x (inorder s.root) hs
    · rw [applyOp, insert]
      have := (insert_rec_valid cmp x s.root 0 hv).2.2.2
      simp only []
      omega
  | rem key =>
    rcases remove_rec_spec cmp key s.root hv with ⟨w0, w1, w2, w3, wdis⟩
    rw [applyOp, remove]
    rcases wdis with ⟨hnone, heq⟩ | ⟨m, L1, L2, hm, hmk1, hmk2, hio1, hio2⟩
    · refine ⟨?_, ?_, ?_⟩ <;> simp only [heq, w0, Bool.false_eq_true, if_false]
      · exact hv
      · exact hs
      · exact hn
    · refine ⟨w1, ?_, ?_⟩
      · simp only []
        rw [hio2]
        rw [hio1] at hs
        exact List.Pairwise.sublist
          (List.Sublist.append_left (List.sublist_cons_self m L2) L1) hs
      · simp only [w0, Bool.false_eq_true, if_false]
        have h1 := length_inorder (remove_rec cmp s.root key false).1
        have h2 := length_inorder s.root
        rw [hio2] at h1
        rw [hio1] at h2
        simp at h1 h2
        omega

theorem foldl_good {cmp : T → T → Bool} (hswo : IsSWO cmp) :
    ∀ ops : List (Op T), ∀ s : State T, goodState cmp s →
    goodState cmp (ops.foldl (applyOp cmp) s) := by
  intro ops
  induction ops with
  | nil => intro s hs; exact hs
  | cons o os ih => intro s hs; exact ih _ (applyOp_good hswo hs o)

/-- Every reachable state satisfies the invariant. -/
theorem runOps_good {cmp : T → T → Bool} (hswo : IsSWO cmp)
    (ops : List (Op T)) : goodState cmp (runOps cmp ops) :=
  foldl_good hswo ops emptyState ⟨rfl, List.Pairwise.nil, Nat.le_refl 0⟩

/-! ## `get_Kth_rec` reads the in-order sequence by index -/

theorem get_Kth_rec_eq : ∀ t : Tree T, sizesOk t = true → ∀ find pos : Nat,
    get_Kth_rec t find pos
      = if find < pos then none else (inorder t)[find - pos]? := by
  intro t
  induction t with
  | nil => intro _ find pos; simp [get_Kth_rec, inorder]
  | node d es dep l r ihl ihr =>
    intro hsz find pos
    have hcomp : sizesOk l = true ∧ sizesOk r = true := by
      simp only [sizesOk, Bool.and_eq_true, beq_iff_eq] at hsz
      tauto
    have hsub : subCnt l = (inorder l).length := by
      rw [subCnt_eq_sizeT hcomp.1, length_inorder]
    simp only [get_Kth_rec, inorder]
    by_cases hc1 : pos + subCnt l = find
    · rw [if_pos hc1, if_neg (by omega), List.getElem?_append]
      rw [if_neg (by omega)]
      have : find - pos - (inorder l).length = 0 := by omega
      rw [this]
      simp
    · by_cases hc2 : pos + subCnt l < find
      · rw [if_neg hc1, if_pos hc2, ihr hcomp.2, if_neg (by omega),
          if_neg (by omega), List.getElem?_append, if_neg (by omega)]
        have : find - pos - (inorder l).length
            = (find - (pos + subCnt l + 1)) + 1 := by omega
        rw [this, List.getElem?_cons_succ]
      · rw [if_neg hc1, if_neg hc2, ihl hcomp.1]
        by_cases hc3 : find < pos
        · rw [if_pos hc3, if_pos hc3]
        · rw [if_neg hc3, if_neg hc3, List.getElem?_append, if_pos (by omega)]

theorem validT_avl {t : Tree T} (h : validT t = true) : avlBalanced t = true := by
  simp only [validT, Bool.and_eq_true] at h; tauto

/-- Validity (cached fields + balance) is preserved by every public call,
with no assumption on the comparator. -/
theorem applyOp_validT {cmp : T → T → Bool} {s : State T}
    (hv : validT s.root = true) (op : Op T) :
    validT (applyOp cmp s op).root = true := by
  cases op with
  | ins x => exact (insert_rec_valid cmp x s.root 0 hv).1
  | rem key => exact (remove_rec_spec cmp key s.root hv).2.1

theorem runOps_validT (cmp : T → T → Bool) (ops : List (Op T)) :
    validT (runOps cmp ops).root = true := by
  suffices h : ∀ ops2 : List (Op T), ∀ s : State T, validT s.root = true →
      validT (ops2.foldl (applyOp cmp) s).root = true by
    exact h ops emptyState rfl
  intro ops2
  induction ops2 with
  | nil => intro s hs; exact hs
  | cons o os ih => intro s hs; exact ih _ (applyOp_validT hs o)

/-- A sorted in-order sequence yields the weak per-node order invariant. -/
theorem sorted_inorder_weakBST {cmp : T → T → Bool} :
    ∀ t : Tree T, SortedLe cmp (inorder t) → weakBST cmp t = true := by
  intro t
  induction t with
  | nil => intro _; rfl
  | node d es dep l r ihl ihr =>
    intro hs
    rw [inorder] at hs
    have h1 : ∀ k ∈ inorder l, cmp d k = false := by
      intro k hk
      exact sortedLe_cross hs k hk d (by simp)
    have h2 : ∀ k ∈ inorder r, cmp k d = false :=
      (List.pairwise_cons.mp (sortedLe_append_right hs)).1
    simp only [weakBST, Bool.and_eq_true, List.all_eq_true]
    refine ⟨⟨⟨?_, ?_⟩, ihl (sortedLe_append_left hs)⟩,
      ihr (List.Pairwise.of_cons (sortedLe_append_right hs))⟩
    · intro k hk; simp [h1 k hk]
    · intro k hk; simp [h2 k hk]

/-! ## Claim theorems -/

/-- C1 (the code contradicts this claim; evaluation at the failing input):
after `insert 1; remove 1` the removal did remove the matching node (a
value was written back and the tree is empty), yet `was_deleted` stayed
`false` — `remove_rec` never sets it — so `element_count` is still 1
instead of 0. -/
theorem C1_count_bug_eval :
    (remove intCmp (runOps intCmp [Op.ins 1]) 1).2.1 = some 1 ∧
    (remove intCmp (runOps intCmp [Op.ins 1]) 1).2.2 = false ∧
    (remove intCmp (runOps intCmp [Op.ins 1]) 1).1.root = Tree.nil ∧
    (remove intCmp (runOps intCmp [Op.ins 1]) 1).1.element_count = 1 := by
  decide

/-- C2 counterexample: the program offers no not-found indication distinct
from the removed case.  After inserting 1, removing 1 does remove the
matching node (a value is written back and the tree empties) while
removing the absent key 2 removes nothing — yet `was_deleted`, the only
found/absent carrier in the code, is `false` after both calls, and the
public `T remove(const T&)` returns just the value slot, unwritten on the
absent key. -/
theorem C2_counterexample :
    (remove intCmp (runOps intCmp [Op.ins 1]) 1).2.1 = some 1 ∧
    inorder (remove intCmp (runOps intCmp [Op.ins 1]) 1).1.root = [] ∧
    (remove intCmp (runOps intCmp [Op.ins 1]) 2).2.1 = none ∧
    inorder (remove intCmp (runOps intCmp [Op.ins 1]) 2).1.root = [1] ∧
    (remove intCmp (runOps intCmp [Op.ins 1]) 1).2.2
      = (remove intCmp (runOps intCmp [Op.ins 1]) 2).2.2 := by
  decide

/-- C2 amended: on every reachable state, `remove` with a key matching no
stored element leaves the state — root structure, cached fields and
count — completely unchanged, writes no value, and comes back with
`was_deleted` still `false`; that flag is not a distinct not-found
indication, since a successful removal leaves it `false` as well. -/
theorem C2_remove_absent_is_noop {T : Type} {cmp : T → T → Bool}
    (hswo : IsSWO cmp) (ops : List (Op T)) (key : T)
    (habs : ∀ y ∈ inorder (runOps cmp ops).root,
      cmp y key = true ∨ cmp key y = true) :
    remove cmp (runOps cmp ops) key = (runOps cmp ops, none, false) := by
  rcases runOps_good hswo ops with ⟨hv, hs, hn⟩
  rcases remove_rec_spec cmp key (runOps cmp ops).root hv with
    ⟨w0, w1, w2, w3, wdis⟩
  rcases wdis with ⟨hnone, heq⟩ | ⟨m, L1, L2, hm, hmk1, hmk2, hio1, hio2⟩
  · rw [remove]
    simp only [heq, hnone, w0, Bool.false_eq_true, if_false]
  · exfalso
    have hmem : m ∈ inorder (runOps cmp ops).root := by rw [hio1]; simp
    rcases habs m hmem with h | h
    · rw [hmk1] at h; cases h
    · rw [hmk2] at h; cases h

/-- C2 witness: removing the absent key 2 from the tree holding only 1. -/
theorem C2_witness :
    remove intCmp (runOps intCmp [Op.ins 1]) 2
      = (runOps intCmp [Op.ins 1], none, false) :=
  C2_remove_absent_is_noop intCmp_SWO [Op.ins 1] 2 (by decide)

/-- C3 counterexample: after the insert-only history 5, 5, 5 (tags record
the insertion order), the rebalancing rotation has promoted the
second-inserted duplicate to the root, and removing key 5 returns the
element with tag 2 — the second match in in-order, not the left-most
duplicate (tag 1). -/
theorem C3_counterexample :
    (inorder (runOps tagCmp [Op.ins (5,1), Op.ins (5,2), Op.ins (5,3)]).root
      = [((5:Int),1), ((5:Int),2), ((5:Int),3)]) ∧
    ((inorder (runOps tagCmp [Op.ins (5,1), Op.ins (5,2), Op.ins (5,3)]).root).find?
        (fun y => !tagCmp y (5,99) && !tagCmp (5,99) y) = some ((5:Int),1)) ∧
    ((remove tagCmp (runOps tagCmp [Op.ins (5,1), Op.ins (5,2), Op.ins (5,3)])
        (5,99)).2.1 = some ((5:Int),2)) ∧
    (((5:Int),(2:Nat)) ≠ (((5:Int),(1:Nat)) : Int × Nat)) ∧
    (inorder (remove tagCmp (runOps tagCmp [Op.ins (5,1), Op.ins (5,2),
        Op.ins (5,3)]) (5,99)).1.root = [((5:Int),1), ((5:Int),3)]) := by
  decide

/-- C3 amended: on every reachable state holding a match, `remove` removes
exactly one matching node — the node hit by the search-path descent —
returning a copy of exactly that element, the remaining in-order sequence
being the prior one with that single occurrence excised.  With duplicate
keys the removed match need not be the left-most one, already after
insert-only histories. -/
theorem C3_remove_one_match {T : Type} {cmp : T → T → Bool}
    (hswo : IsSWO cmp) (ops : List (Op T)) (key : T)
    (hex : ∃ y ∈ inorder (runOps cmp ops).root,
      cmp y key = false ∧ cmp key y = false) :
    ∃ m L1 L2,
      (remove cmp (runOps cmp ops) key).2.1 = some m ∧
      cmp m key = false ∧ cmp key m = false ∧
      inorder (runOps cmp ops).root = L1 ++ m :: L2 ∧
      inorder (remove cmp (runOps cmp ops) key).1.root = L1 ++ L2 := by
  rcases runOps_good hswo ops with ⟨hv, hs, hn⟩
  rcases remove_rec_spec cmp key (runOps cmp ops).root hv with
    ⟨w0, w1, w2, w3, wdis⟩
  rcases remove_rec_found hswo key (runOps cmp ops).root hs hex with ⟨m0, hm0⟩
  rcases wdis with ⟨hnone, heq⟩ | ⟨m, L1, L2, hm, hmk1, hmk2, hio1, hio2⟩
  · rw [hnone] at hm0; cases hm0
  · refine ⟨m, L1, L2, ?_, hmk1, hmk2, hio1, ?_⟩
    · rw [remove]; exact hm
    · rw [remove]; exact hio2

/-- C3 witness: removing key 1 from the tree holding only 1. -/
theorem C3_witness :
    ∃ m L1 L2,
      (remove intCmp (runOps intCmp [Op.ins 1]) 1).2.1 = some m ∧
      intCmp m 1 = false ∧ intCmp 1 m = false ∧
      inorder (runOps intCmp [Op.ins 1]).root = L1 ++ m :: L2 ∧
      inorder (remove intCmp (runOps intCmp [Op.ins 1]) 1).1.root = L1 ++ L2 :=
  C3_remove_one_match intCmp_SWO [Op.ins 1] 1 ⟨1, by decide, by decide, by decide⟩

/-- C4: on every reachable state, the rank returned by `insert` equals the
number of stored elements comparing not-greater than the new element, and
`get_Kth` at that rank immediately afterwards returns the just-inserted
element. -/
theorem C4_insert_rank {T : Type} {cmp : T → T → Bool}
    (hswo : IsSWO cmp) (ops : List (Op T)) (x : T) :
    (insert cmp (runOps cmp ops) x).2
      = (inorder (runOps cmp ops).root).countP (fun y => ! cmp x y) ∧
    get_Kth (insert cmp (runOps cmp ops) x).1
      (insert cmp (runOps cmp ops) x).2 = some x := by
  rcases runOps_good hswo ops with ⟨hv, hs, hn⟩
  have hpos := insert_rec_pos hswo x (runOps cmp ops).root 0 hv hs
  have hvi := insert_rec_valid cmp x (runOps cmp ops).root 0 hv
  have hio := insert_rec_inorder hswo x (runOps cmp ops).root 0 hv hs
  have hpart1 : (insert cmp (runOps cmp ops) x).2
      = (inorder (runOps cmp ops).root).countP (fun y => ! cmp x y) := by
    rw [insert]
    simpa using hpos
  refine ⟨hpart1, ?_⟩
  have hcnt : (inorder (runOps cmp ops).root).countP (fun y => ! cmp x y)
      ≤ (inorder (runOps cmp ops).root).length := List.countP_le_length _
  have hlen := length_inorder (runOps cmp ops).root
  rw [get_Kth, hpart1]
  have hec : (insert cmp (runOps cmp ops) x).1.element_count
      = (runOps cmp ops).element_count + 1 := by rw [insert]
  rw [hec, if_pos (by omega)]
  have hroot : (insert cmp (runOps cmp ops) x).1.root
      = (insert_rec cmp (runOps cmp ops).root x 0).1 := by rw [insert]
  rw [hroot, get_Kth_rec_eq _ (validT_sizesOk hvi.1), if_neg (by omega),
    Nat.sub_zero, hio]
  exact insL_getElem hswo x (inorder (runOps cmp ops).root) hs

/-- C4 witness: inserting 4 after 5 and 3 reports rank 1, and `get_Kth 1`
then returns 4. -/
theorem C4_witness :
    (insert intCmp (runOps intCmp [Op.ins 5, Op.ins 3]) 4).2
      = (inorder (runOps intCmp [Op.ins 5, Op.ins 3]).root).countP
          (fun y => ! intCmp 4 y) ∧
    get_Kth (insert intCmp (runOps intCmp [Op.ins 5, Op.ins 3]) 4).1
      (insert intCmp (runOps intCmp [Op.ins 5, Op.ins 3]) 4).2 = some 4 :=
  C4_insert_rank intCmp_SWO [Op.ins 5, Op.ins 3] 4

/-- C6: every state reachable by any sequence of `insert`/`remove` calls
satisfies the AVL balance invariant — at every node the actual heights of
the two child subtrees differ by at most one. -/
theorem C6_avl_balance {T : Type} (cmp : T → T → Bool) (ops : List (Op T)) :
    avlBalanced (runOps cmp ops).root = true :=
  validT_avl (runOps_validT cmp ops)

/-- C7: in every reachable state, every node's `elements_subtree` field
equals the node count of its subtree minus one — the sum of
`child.elements_subtree + 1` over present children. -/
theorem C7_subtree_size_fields {T : Type} (cmp : T → T → Bool)
    (ops : List (Op T)) :
    sizesOk (runOps cmp ops).root = true :=
  validT_sizesOk (runOps_validT cmp ops)

/-- C8 counterexample: already after the insert-only sequence 5, 5, 5 the
rebalancing rotation leaves the root's key 5 with another 5 in its left
subtree — the strict BST invariant (left keys strictly less) does not hold
on this reachable state. -/
theorem C8_counterexample :
    strictBST intCmp (runOps intCmp [Op.ins 5, Op.ins 5, Op.ins 5]).root
      = false := by
  decide

/-- C8 amended: every reachable state satisfies the weak per-node order
invariant — keys in the left subtree compare not-greater than the node's
key and keys in the right compare not-less (equivalently, the in-order
sequence stays sorted); the strict form (left strictly less) can fail
whenever duplicate keys are present, already after insert-only
sequences. -/
theorem C8_weak_order_invariant {T : Type} {cmp : T → T → Bool}
    (hswo : IsSWO cmp) (ops : List (Op T)) :
    weakBST cmp (runOps cmp ops).root = true :=
  sorted_inorder_weakBST _ (runOps_good hswo ops).2.1

/-- C8 witness: the weak order invariant on a state reached through both
an insert and a remove. -/
theorem C8_witness :
    weakBST intCmp (runOps intCmp [Op.ins 2, Op.ins 1, Op.rem 2]).root = true :=
  C8_weak_order_invariant intCmp_SWO [Op.ins 2, Op.ins 1, Op.rem 2]

/-- C9 (the code contradicts this claim; evaluation at the failing input):
after `insert 1; remove 1` the stale count is 1, so `get_Kth 0` passes the
`assert(pos < element_count)` precondition, yet the tree is empty and the
descent hits the null branch, returning no well-defined element. -/
theorem C9_assert_gap_eval :
    (runOps intCmp [Op.ins 1, Op.rem 1]).element_count = 1 ∧
    (runOps intCmp [Op.ins 1, Op.rem 1]).root = Tree.nil ∧
    get_Kth_rec (runOps intCmp [Op.ins 1, Op.rem 1]).root 0 0 = none := by
  decide

/-! ## C5: order statistics over insert-only histories, ties by insertion
order.  Keys are tagged with their insertion index; the comparator looks
only at the key, the tag witnesses stability. -/

/-- Tag each key with its 0-based insertion index, starting at `i`. -/
def tagList : List Int → Nat → List (Int × Nat)
  | [], _ => []
  | k :: ks, i => (k, i) :: tagList ks (i + 1)

theorem tagList_length : ∀ keys : List Int, ∀ i : Nat,
    (tagList keys i).length = keys.length := by
  intro keys
  induction keys with
  | nil => intro i; rfl
  | cons k ks ih => intro i; simp [tagList, ih]

/-- The stable-sort order: by key, ties by insertion index. -/
def lexLe (a b : Int × Nat) : Bool :=
  a.1 < b.1 || (a.1 == b.1 && a.2 ≤ b.2)

/-- Strict part of `lexLe`. -/
def lexLt (a b : Int × Nat) : Prop :=
  a.1 < b.1 ∨ (a.1 = b.1 ∧ a.2 < b.2)

theorem lexLe_trans : ∀ a b c : Int × Nat,
    lexLe a b = true → lexLe b c = true → lexLe a c = true := by
  intro a b c h1 h2
  simp only [lexLe, Bool.or_eq_true, Bool.and_eq_true, decide_eq_true_eq,
    beq_iff_eq] at *
  omega

theorem lexLe_total : ∀ a b : Int × Nat, (lexLe a b || lexLe b a) = true := by
  intro a b
  simp only [lexLe, Bool.or_eq_true, Bool.and_eq_true, decide_eq_true_eq,
    beq_iff_eq]
  omega

theorem lexLe_antisymm : ∀ a b : Int × Nat,
    lexLe a b = true → lexLe b a = true → a = b := by
  intro a b h1 h2
  simp only [lexLe, Bool.or_eq_true, Bool.and_eq_true, decide_eq_true_eq,
    beq_iff_eq] at h1 h2
  cases a; cases b
  simp only [Prod.mk.injEq]
  simp at h1 h2
  omega

theorem lexLt_le {a b : Int × Nat} (h : lexLt a b) : lexLe a b = true := by
  simp only [lexLe, Bool.or_eq_true, Bool.and_eq_true, decide_eq_true_eq,
    beq_iff_eq]
  rcases h with h | h
  · omega
  · omega

/-- Inserting a freshly-tagged element into a lexicographically sorted
list through the key-only comparator keeps it lexicographically sorted:
this is exactly the statement that duplicates land behind their
earlier-inserted equals. -/
theorem pairwise_lexLt_insL : ∀ L : List (Int × Nat), ∀ k : Int, ∀ i : Nat,
    List.Pairwise lexLt L → (∀ y ∈ L, y.2 < i) →
    List.Pairwise lexLt (insL tagCmp (k, i) L) := by
  intro L
  induction L with
  | nil => intro k i _ _; simp [insL]
  | cons y ys ih =>
    intro k i hp ht
    rcases List.pairwise_cons.mp hp with ⟨hy, hys⟩
    by_cases hc : tagCmp (k, i) y = true
    · have hky : (k : Int) < y.1 := by simpa [tagCmp] using hc
      simp only [insL, hc, if_true]
      refine List.pairwise_cons.mpr ⟨?_, hp⟩
      intro z hz
      rcases List.mem_cons.mp hz with rfl | hz2
      · exact Or.inl hky
      · rcases hy z hz2 with h | h
        · exact Or.inl (lt_trans hky h)
        · exact Or.inl (by omega)
    · have hky : ¬ ((k : Int) < y.1) := by simpa [tagCmp] using hc
      simp only [insL, hc, if_false, Bool.false_eq_true]
      refine List.pairwise_cons.mpr
        ⟨?_, ih k i hys (fun z hz => ht z (List.mem_cons_of_mem y hz))⟩
      intro z hz
      rcases (mem_insL tagCmp (k, i) z ys).mp hz with rfl | hz2
      · rcases lt_or_eq_of_le (le_of_not_lt hky) with h | h
        · exact Or.inl h
        · exact Or.inr ⟨h, ht y (by simp)⟩
      · exact hy z hz2

/-- Repeatedly inserting the tagged keys keeps the accumulated list
lexicographically sorted, with all tags below the running index bound. -/
theorem tagged_fold_pairwise : ∀ keys : List Int, ∀ i : Nat,
    ∀ L0 : List (Int × Nat),
    List.Pairwise lexLt L0 → (∀ y ∈ L0, y.2 < i) →
    List.Pairwise lexLt
      ((tagList keys i).foldl (fun L x => insL tagCmp x L) L0) ∧
    (∀ y ∈ (tagList keys i).foldl (fun L x => insL tagCmp x L) L0,
      y.2 < i + keys.length) := by
  intro keys
  induction keys with
  | nil =>
    intro i L0 h1 h2
    exact ⟨h1, by simpa using h2⟩
  | cons k ks ih =>
    intro i L0 h1 h2
    simp only [tagList, List.foldl]
    have h1a := pairwise_lexLt_insL L0 k i h1 h2
    have h2a : ∀ y ∈ insL tagCmp (k, i) L0, y.2 < i + 1 := by
      intro y hy
      rcases (mem_insL tagCmp (k, i) y L0).mp hy with rfl | hy2
      · simp
      · have := h2 y hy2; omega
    have hih := ih (i + 1) _ h1a h2a
    refine ⟨hih.1, ?_⟩
    intro y hy
    have := hih.2 y hy
    simp only [List.length_cons]
    omega

/-- Insert-only histories: the in-order sequence is the fold of ordered
insertions. -/
theorem insFold {cmp : T → T → Bool} (hswo : IsSWO cmp) :
    ∀ xs : List T, ∀ s : State T, goodState cmp s →
    inorder ((xs.map Op.ins).foldl (applyOp cmp) s).root
      = xs.foldl (fun L x => insL cmp x L) (inorder s.root) := by
  intro xs
  induction xs with
  | nil => intro s hs; rfl
  | cons x xs ih =>
    intro s hs
    simp only [List.map, List.foldl]
    rw [ih _ (applyOp_good hswo hs (Op.ins x))]
    have : inorder (applyOp cmp s (Op.ins x)).root
        = insL cmp x (inorder s.root) := by
      rw [applyOp, insert]
      exact insert_rec_inorder hswo x s.root 0 hs.1 hs.2.1
    rw [this]

theorem insFold_count (cmp : T → T → Bool) :
    ∀ xs : List T, ∀ s : State T,
    ((xs.map Op.ins).foldl (applyOp cmp) s).element_count
      = s.element_count + xs.length := by
  intro xs
  induction xs with
  | nil => intro s; simp
  | cons x xs ih =>
    intro s
    simp only [List.map, List.foldl, List.length_cons]
    rw [ih]
    simp only [applyOp, insert]
    omega

theorem foldl_insL_perm (cmp : T → T → Bool) :
    ∀ xs acc : List T,
    (xs.foldl (fun L x => insL cmp x L) acc).Perm (acc ++ xs) := by
  intro xs
  induction xs with
  | nil => intro acc; simp
  | cons x xs ih =>
    intro acc
    simp only [List.foldl]
    refine (ih (insL cmp x acc)).trans ?_
    refine (List.Perm.append_right xs (perm_insL cmp x acc)).trans ?_
    exact List.perm_middle.symm

/-- C5: over any insert-only history (keys tagged with insertion order),
`get_Kth` returns exactly the entries of the stable sort of the inserted
sequence — the r-th smallest under the comparator, ties resolved to the
earlier-inserted element. -/
theorem C5_order_statistics (keys : List Int) (r : Nat) :
    get_Kth (runOps tagCmp ((tagList keys 0).map Op.ins)) r
      = ((tagList keys 0).mergeSort lexLe)[r]? := by
  have hgood0 : goodState tagCmp (emptyState : State (Int × Nat)) :=
    ⟨rfl, List.Pairwise.nil, Nat.le_refl 0⟩
  have hio : inorder (runOps tagCmp ((tagList keys 0).map Op.ins)).root
      = (tagList keys 0).foldl (fun L x => insL tagCmp x L) [] := by
    rw [runOps]
    exact insFold tagCmp_SWO (tagList keys 0) emptyState hgood0
  have hec : (runOps tagCmp ((tagList keys 0).map Op.ins)).element_count
      = keys.length := by
    rw [runOps, insFold_count, tagList_length]
    simp [emptyState]
  have hpw : List.Pairwise lexLt
      (inorder (runOps tagCmp ((tagList keys 0).map Op.ins)).root) := by
    rw [hio]
    exact (tagged_fold_pairwise keys 0 [] List.Pairwise.nil (by simp)).1
  have hperm : (inorder (runOps tagCmp ((tagList keys 0).map Op.ins)).root).Perm
      (tagList keys 0) := by
    rw [hio]
    simpa using foldl_insL_perm tagCmp (tagList keys 0) []
  have hms_perm := List.mergeSort_perm (tagList keys 0) lexLe
  have hms_sorted := List.sorted_mergeSort lexLe_trans lexLe_total (tagList keys 0)
  haveI : IsAntisymm (Int × Nat) (fun a b => lexLe a b = true) :=
    ⟨lexLe_antisymm⟩
  have hsorted1 : List.Sorted (fun a b => lexLe a b = true)
      (inorder (runOps tagCmp ((tagList keys 0).map Op.ins)).root) :=
    hpw.imp lexLt_le
  have heq : inorder (runOps tagCmp ((tagList keys 0).map Op.ins)).root
      = (tagList keys 0).mergeSort lexLe :=
    List.eq_of_perm_of_sorted (hperm.trans hms_perm.symm) hsorted1 hms_sorted
  by_cases hr : r < keys.length
  · rw [get_Kth, hec, if_pos hr,
      get_Kth_rec_eq _ (validT_sizesOk (runOps_validT tagCmp _)),
      if_neg (by omega), Nat.sub_zero, heq]
  · rw [get_Kth, hec, if_neg hr]
    symm
    rw [List.getElem?_eq_none]
    rw [List.length_mergeSort, tagList_length]
    omega

/-! ## C10: termination.  Each recursive routine descends only into a
strict subtree, so a recursion budget of the tree's height suffices: the
fuel-indexed variants below return `none` on exhausted budget and agree
with the (structurally terminating) functions whenever the budget exceeds
the height. -/

/-- `insert_rec` with an explicit recursion budget. -/
def insert_recF (cmp : T → T → Bool) : Nat → Tree T → T → Nat → Option (Tree T × Nat)
  | 0, _, _, _ => none
  | _ + 1, .nil, x, pos => some (.node x 0 1 .nil .nil, pos)
  | fuel + 1, .node d es dep l r, x, pos =>
    if cmp x d then
      (insert_recF cmp fuel l x pos).bind fun p =>
        some (balance_node (.node d (es + 1) dep p.1 r), p.2)
    else
      (insert_recF cmp fuel r x (pos + (subCnt l + 1))).bind fun p =>
        some (balance_node (.node d (es + 1) dep l p.1), p.2)

/-- `get_Kth_rec` with an explicit recursion budget. -/
def get_Kth_recF : Nat → Tree T → Nat → Nat → Option (Option T)
  | 0, _, _, _ => none
  | _ + 1, .nil, _, _ => some none
  | fuel + 1, .node d _ _ l r, find_pos, pos =>
    if pos + subCnt l = find_pos then some (some d)
    else if pos + subCnt l < find_pos then
      get_Kth_recF fuel r find_pos (pos + subCnt l + 1)
    else
      get_Kth_recF fuel l find_pos pos

/-- `remove_min` with an explicit recursion budget. -/
def remove_minF : Nat → Tree T → Option (Tree T × Option T)
  | 0, _ => none
  | _ + 1, .nil => some (.nil, none)
  | _ + 1, .node d _ _ .nil r => some (r, some d)
  | fuel + 1, .node d es dep (.node dl esl depl ll rl) r =>
    (remove_minF fuel (.node dl esl depl ll rl)).bind fun p =>
      some (balance_node (.node d (es - 1) dep p.1 r), p.2)

/-- `remove_max` with an explicit recursion budget. -/
def remove_maxF : Nat → Tree T → Option (Tree T × Option T)
  | 0, _ => none
  | _ + 1, .nil => some (.nil, none)
  | _ + 1, .node d _ _ l .nil => some (l, some d)
  | fuel + 1, .node d es dep l (.node dr esr depr lr rr) =>
    (remove_maxF fuel (.node dr esr depr lr rr)).bind fun p =>
      some (balance_node (.node d (es - 1) dep l p.1), p.2)

/-- `remove_rec` with an explicit recursion budget. -/
def remove_recF (cmp : T → T → Bool) :
    Nat → Tree T → T → Bool → Option (Tree T × Option T × Bool)
  | 0, _, _, _ => none
  | _ + 1, .nil, _, wd => some (.nil, none, wd)
  | fuel + 1, .node d es dep l r, key, wd =>
    if cmp d key then
      (remove_recF cmp fuel r key wd).bind fun p =>
        some (balance_node (.node d (if p.2.2 then es - 1 else es) dep l p.1),
          p.2.1, p.2.2)
    else if cmp key d then
      (remove_recF cmp fuel l key wd).bind fun p =>
        some (balance_node (.node d (if p.2.2 then es - 1 else es) dep p.1 r),
          p.2.1, p.2.2)
    else
      if depthF r = 0 && depthF l = 0 then
        some (.nil, some d, wd)
      else if depthF l ≤ depthF r then
        (remove_minF fuel r).bind fun p =>
          some (balance_node (.node (p.2.getD d) es dep l p.1), some d, wd)
      else
        (remove_maxF fuel l).bind fun p =>
          some (balance_node (.node (p.2.getD d) es dep p.1 r), some d, wd)

theorem insert_recF_eq (cmp : T → T → Bool) :
    ∀ fuel : Nat, ∀ t : Tree T, ∀ x : T, ∀ pos : Nat, heightT t < fuel →
    insert_recF cmp fuel t x pos = some (insert_rec cmp t x pos) := by
  intro fuel
  induction fuel with
  | zero => intro t x pos h; omega
  | succ f ih =>
    intro t x pos h
    cases t with
    | nil => rfl
    | node d es dep l r =>
      have hl : heightT l < f := by simp [heightT] at h; omega
      have hr : heightT r < f := by simp [heightT] at h; omega
      by_cases hc : cmp x d = true
      · simp [insert_recF, insert_rec, hc, ih l x pos hl]
      · simp [insert_recF, insert_rec, hc, ih r x (pos + (subCnt l + 1)) hr]

theorem get_Kth_recF_eq :
    ∀ fuel : Nat, ∀ t : Tree T, ∀ find pos : Nat, heightT t < fuel →
    get_Kth_recF fuel t find pos = some (get_Kth_rec t find pos) := by
  intro fuel
  induction fuel with
  | zero => intro t find pos h; omega
  | succ f ih =>
    intro t find pos h
    cases t with
    | nil => rfl
    | node d es dep l r =>
      have hl : heightT l < f := by simp [heightT] at h; omega
      have hr : heightT r < f := by simp [heightT] at h; omega
      by_cases hc1 : pos + subCnt l = find
      · simp [get_Kth_recF, get_Kth_rec, hc1]
      · by_cases hc2 : pos + subCnt l < find
        · simp [get_Kth_recF, get_Kth_rec, hc1, hc2,
            ih r find (pos + subCnt l + 1) hr]
        · simp [get_Kth_recF, get_Kth_rec, hc1, hc2, ih l find pos hl]

theorem remove_minF_eq :
    ∀ fuel : Nat, ∀ t : Tree T, heightT t < fuel →
    remove_minF fuel t = some (remove_min t) := by
  intro fuel
  induction fuel with
  | zero => intro t h; omega
  | succ f ih =>
    intro t h
    cases t with
    | nil => rfl
    | node d es dep l r =>
      cases l with
      | nil => rfl
      | node dl esl depl ll rl =>
        have hl : heightT (Tree.node dl esl depl ll rl) < f := by
          simp [heightT] at h ⊢; omega
        simp [remove_minF, remove_min, ih (Tree.node dl esl depl ll rl) hl]

theorem remove_maxF_eq :
    ∀ fuel : Nat, ∀ t : Tree T, heightT t < fuel →
    remove_maxF fuel t = some (remove_max t) := by
  intro fuel
  induction fuel with
  | zero => intro t h; omega
  | succ f ih =>
    intro t h
    cases t with
    | nil => rfl
    | node d es dep l r =>
      cases r with
      | nil => rfl
      | node dr esr depr lr rr =>
        have hr : heightT (Tree.node dr esr depr lr rr) < f := by
          simp [heightT] at h ⊢; omega
        simp [remove_maxF, remove_max, ih (Tree.node dr esr depr lr rr) hr]

theorem remove_recF_eq (cmp : T → T → Bool) :
    ∀ fuel : Nat, ∀ t : Tree T, ∀ key : T, ∀ wd : Bool, heightT t < fuel →
    remove_recF cmp fuel t key wd = some (remove_rec cmp t key wd) := by
  intro fuel
  induction fuel with
  | zero => intro t key wd h; omega
  | succ f ih =>
    intro t key wd h
    cases t with
    | nil => rfl
    | node d es dep l r =>
      have hl : heightT l < f := by simp [heightT] at h; omega
      have hr : heightT r < f := by simp [heightT] at h; omega
      by_cases h1 : cmp d key = true
      · simp [remove_recF, remove_rec, h1, ih r key wd hr]
      · by_cases h2 : cmp key d = true
        · simp [remove_recF, remove_rec, h1, h2, ih l key wd hl]
        · by_cases h3 : depthF r = 0 ∧ depthF l = 0
          · simp [remove_recF, remove_rec, h1, h2, h3.1, h3.2]
          · by_cases h4 : depthF l ≤ depthF r
            · simp [remove_recF, remove_rec, h1, h2, h3, h4,
                remove_minF_eq f r hr]
            · simp [remove_recF, remove_rec, h1, h2, h3, h4,
                remove_maxF_eq f l hl]

/-- C10: every recursive routine of the class terminates on every finite
tree — each recursion steps into a strict subtree, so any budget above the
tree's height lets the fuel-indexed variants complete and agree with the
total embeddings. -/
theorem C10_termination {T : Type} (cmp : T → T → Bool) (fuel : Nat)
    (t : Tree T) (x key : T) (wd : Bool) (find pos : Nat)
    (h : heightT t < fuel) :
    insert_recF cmp fuel t x pos = some (insert_rec cmp t x pos) ∧
    remove_recF cmp fuel t key wd = some (remove_rec cmp t key wd) ∧
    get_Kth_recF fuel t find pos = some (get_Kth_rec t find pos) ∧
    remove_minF fuel t = some (remove_min t) ∧
    remove_maxF fuel t = some (remove_max t) :=
  ⟨insert_recF_eq cmp fuel t x pos h, remove_recF_eq cmp fuel t key wd h,
    get_Kth_recF_eq fuel t find pos h, remove_minF_eq fuel t h,
    remove_maxF_eq fuel t h⟩

/-- C10 witness: a height-2 tree with budget 3. -/
theorem C10_witness :
    heightT (runOps intCmp [Op.ins 1, Op.ins 2]).root < 3 ∧
    (insert_recF intCmp 3 (runOps intCmp [Op.ins 1, Op.ins 2]).root 5 0
        = some (insert_rec intCmp (runOps intCmp [Op.ins 1, Op.ins 2]).root 5 0) ∧
      remove_recF intCmp 3 (runOps intCmp [Op.ins 1, Op.ins 2]).root 2 false
        = some (remove_rec intCmp (runOps intCmp [Op.ins 1, Op.ins 2]).root 2 false) ∧
      get_Kth_recF 3 (runOps intCmp [Op.ins 1, Op.ins 2]).root 1 0
        = some (get_Kth_rec (runOps intCmp [Op.ins 1, Op.ins 2]).root 1 0) ∧
      remove_minF 3 (runOps intCmp [Op.ins 1, Op.ins 2]).root
        = some (remove_min (runOps intCmp [Op.ins 1, Op.ins 2]).root) ∧
      remove_maxF 3 (runOps intCmp [Op.ins 1, Op.ins 2]).root
        = some (remove_max (runOps intCmp [Op.ins 1, Op.ins 2]).root)) :=
  ⟨by decide,
    C10_termination intCmp 3 (runOps intCmp [Op.ins 1, Op.ins 2]).root 5 2
      false 1 0 (by decide)⟩

end AVLSpec
